import Mathlib

/-!
Verification of the llmrankers reranking library (src/llmrankers/listwise.py and
src/llmrankers/pairwise.py) against its natural-language specification.

Python strings are embedded as `List Char`, Python integers as `ℤ` or `ℕ`,
Python floats used for scores as `ℚ` (all score arithmetic in the source is on
exact multiples of 1/2, so this is a faithful model), and fallible code as
`Except PyErr`.  The external language-model oracle is abstracted as a function
from prompt text to response text, exactly as the spec (section 6) prescribes.
-/

namespace LlmRankers

/-- Python runtime errors that the embedded code can raise. -/
inductive PyErr where
  | typeError
  | indexError
  | notImplementedError
  deriving DecidableEq, Repr

/-- The shape of a retrieval result.  Modelled from the spec (section 3 Document):
the class itself lives in `llmrankers/rankers.py`, which is not part of the
given sources; only its three fields `docid`, `score`, `text` are used. -/
structure SearchResult where
  docid : String
  score : ℚ
  text : Option (List Char)
  deriving DecidableEq, Repr

instance : Inhabited SearchResult := ⟨⟨"", 0, none⟩⟩

/-! ### Python string helpers -/

/-- Python `str.split()` (split on whitespace runs, dropping empty pieces);
`acc` holds the current word reversed. -/
def pyWordsAux : List Char → List Char → List (List Char)
  | [], acc => if acc = [] then [] else [acc.reverse]
  | c :: cs, acc =>
      if c.isWhitespace then
        if acc = [] then pyWordsAux cs [] else acc.reverse :: pyWordsAux cs []
      else pyWordsAux cs (c :: acc)

/-- Python `str.split()` with no separator argument. -/
def pyWords (l : List Char) : List (List Char) := pyWordsAux l []

/-- Python `str.strip()`: remove leading and trailing whitespace. -/
def pyStrip (l : List Char) : List Char :=
  ((l.dropWhile Char.isWhitespace).reverse.dropWhile Char.isWhitespace).reverse

/-- Python `int(tok)` for a token made of decimal digits. -/
def pyInt (w : List Char) : ℤ :=
  w.foldl (fun a c => a * 10 + ((c.toNat - '0'.toNat : ℕ) : ℤ)) 0

/-- Python `' '.join(ws)`. -/
def pyJoinSpace (ws : List (List Char)) : List Char := List.intercalate [' '] ws

/-- Python `l[:m]` for a possibly negative `m`:
`l[:m]` is the first `max 0 (len l + m)` elements when `m < 0`. -/
def pySliceTo (m : ℤ) (l : List α) : List α :=
  if 0 ≤ m then l.take m.toNat else l.take (l.length - (-m).toNat)

/-- Python slice `l[s:e]` for nonnegative bounds. -/
def pySlice (s e : ℕ) (l : List α) : List α := (l.drop s).take (e - s)

/-- The write-back loop `for j, x in enumerate(vals): l[i + j] = vals[j]`,
specialised to writing the list `vals` starting at index `i`. -/
def writeLoop : List α → List α → ℕ → List α
  | l, [], _ => l
  | l, v :: vs, i => writeLoop (l.set i v) vs (i + 1)

/-- Definition `enumMapFrom f i [a, b, ...] = [f i a, f (i+1) b, ...]`: the shape of Python
`for i, x in enumerate(l)` loops that build a list from index and element. -/
def enumMapFrom (f : ℕ → α → β) : ℕ → List α → List β
  | _, [] => []
  | i, a :: as => f i a :: enumMapFrom f (i + 1) as

/-! ### Permutation repair (listwise.py lines 129-167) -/

/-- Embeds listwise.py `clean_response` (lines 129-138): replace every non-digit
character by a space, then strip. -/
def clean_response (response : List Char) : List Char :=
  pyStrip (response.map (fun c => if c.isDigit then c else ' '))

/-- Embeds listwise.py `remove_duplicate` (lines 141-147): drop repeated elements,
keeping first occurrences. -/
def remove_duplicate [DecidableEq α] (l : List α) : List α :=
  l.foldl (fun acc c => if c ∈ acc then acc else acc ++ [c]) []

/-- The index list computed by `receive_permutation` (listwise.py lines
154-162) before the write-back: parse window-local 1-based identifiers from
the raw response, convert to 0-based, deduplicate, discard values outside
`[0, n)` and append the missing indices in ascending order.  `n` is the
length of the extracted window. -/
def resolvedPerm (permutation : List Char) (n : ℕ) : List ℤ :=
  let response := (pyWords (clean_response permutation)).map (fun x => pyInt x - 1)
  let response := remove_duplicate response
  let original_rank := (List.range n).map (Int.ofNat ·)
  let response := response.filter (fun ss => decide (ss ∈ original_rank))
  response ++ original_rank.filter (fun tt => decide (tt ∉ response))

/-- Embeds listwise.py `receive_permutation` (lines 152-167): rewrite the window
`ranking[rank_start:rank_end]` according to the repaired permutation.
`cut_range.getD x.toNat default` stands for `cut_range[x]`; every `x` fed to
it is provably in `[0, cut_range.length)`, so the default is never used. -/
def receive_permutation [Inhabited α] (ranking : List α) (permutation : List Char)
    (rank_start rank_end : ℕ) : List α :=
  let cut_range := pySlice rank_start rank_end ranking
  let response := resolvedPerm permutation cut_range.length
  writeLoop ranking (response.map (fun x => cut_range.getD x.toNat default)) rank_start

/-! ### Prompt budget fitter (listwise.py lines 10-102) -/

/-- One chat message `{"role": ..., "content": ...}`. -/
structure ChatMessage where
  role : List Char
  content : List Char
  deriving DecidableEq, Repr

/-- Embeds listwise.py `max_tokens` (lines 10-14): `8192` when `"gpt-4"` occurs in the
model name, else `4096`. -/
def max_tokens (model : List Char) : ℕ :=
  if ("gpt-4".data) <:+: model then 8192 else 4096

/-- Embeds listwise.py `get_post_prompt` (lines 17-19). -/
def get_post_prompt (query : List Char) (num : ℕ) : List Char :=
  "Search Query: ".data ++ query ++ ". \nRank the ".data ++ (Nat.repr num).data ++
  " passages above based on their relevance to the search query. The passages should be listed in descending order using identifiers. The most relevant passages should be listed first. The output format should be [] > [], e.g., [1] > [2]. Only response the ranking results, do not say any word or explain.".data

/-- Embeds listwise.py `get_prefix_prompt` (lines 22-28). -/
def get_prefix_prompt (query : List Char) (num : ℕ) : List ChatMessage :=
  [⟨"system".data,
    "You are RankGPT, an intelligent assistant that can rank passages based on their relevancy to the query.".data⟩,
   ⟨"user".data,
    "I will provide you with ".data ++ (Nat.repr num).data ++
    " passages, each indicated by number identifier []. \nRank the passages based on their relevance to query: ".data ++
    query ++ ".".data⟩,
   ⟨"assistant".data, "Okay, please provide the passages.".data⟩]

/-- The tokens-per-message constant of `num_tokens_from_messages`
(listwise.py lines 35-47), after resolving the aliasing recursion
(`"gpt-3.5-turbo"` delegates to `"gpt-3.5-turbo-0301"`, `"gpt-4"` to
`"gpt-4-0314"`).  The companion `tokens_per_name` is irrelevant here because
no message built by this module carries a `name` key. -/
def tokens_per_message (model : List Char) : ℕ :=
  if model = "gpt-3.5-turbo".data ∨ model = "gpt-3.5-turbo-0301".data then 4
  else if model = "gpt-4".data ∨ model = "gpt-4-0314".data then 3
  else 0

/-- Embeds listwise.py `num_tokens_from_messages` (lines 33-65) on a message list:
per message the framing constant plus the encoded length of each value of the
`{role, content}` dict, plus 3 for the reply priming.  The tiktoken encoding
is external; it is abstracted as `enc`. -/
def num_tokens_from_messages (enc : List Char → ℕ) (messages : List ChatMessage)
    (model : List Char) : ℕ :=
  (messages.foldl
    (fun acc m => acc + tokens_per_message model + enc m.role + enc m.content) 0) + 3

/-- Python `content.replace("Title: Content: ", "")` of
`create_permutation_instruction_chat` (listwise.py line 82); the pattern has
16 characters. -/
def replaceTitleContent : List Char → List Char
  | [] => []
  | c :: cs =>
      if ("Title: Content: ".data).isPrefixOf (c :: cs) then
        replaceTitleContent ((c :: cs).drop 16)
      else c :: replaceTitleContent cs
termination_by l => l.length
decreasing_by
  · simp [List.length_drop]; omega
  · simp

/-- The per-document content pipeline of the loop body (listwise.py lines
80-87): strip the title marker, strip whitespace, keep the first
`max_length` words. -/
def docContent (text : List Char) (max_length : ℤ) : List Char :=
  pyJoinSpace (pySliceTo max_length (pyWords (pyStrip (replaceTitleContent text))))

/-- One iteration of the message-building loop body of
`create_permutation_instruction_chat` (listwise.py lines 76-92), for document
texts `docs` and the current truncation length `max_length`. -/
def buildMessages (query : List Char) (docs : List (List Char)) (max_length : ℤ) :
    List ChatMessage :=
  get_prefix_prompt query docs.length ++
  (enumMapFrom (fun i text =>
      [⟨"user".data, "[".data ++ (Nat.repr (i + 1)).data ++ "] ".data ++ docContent text max_length⟩,
       ⟨"assistant".data, "Received passage [".data ++ (Nat.repr (i + 1)).data ++ "].".data⟩])
    0 docs).flatten ++
  [⟨"user".data, get_post_prompt query docs.length⟩]

/-- Embeds listwise.py `create_permutation_instruction_chat` (lines 70-102): the
shrink-to-fit loop.  The source loop is `while True:` with no fuel; here the
loop is indexed by fuel, and running out of fuel returns `none`.  The source
loop terminates (with the built messages as its value) exactly when some fuel
makes this function return `some`. -/
def create_permutation_instruction_chat (enc : List Char → ℕ) (query : List Char)
    (docs : List (List Char)) (model_name : Option (List Char)) :
    ℕ → ℤ → Option (List ChatMessage)
  | 0, _ => none
  | fuel + 1, max_length =>
      let messages := buildMessages query docs max_length
      match model_name with
      | none => some messages
      | some m =>
          if num_tokens_from_messages enc messages m ≤ max_tokens m - 200 then
            some messages
          else
            create_permutation_instruction_chat enc query docs (some m) fuel (max_length - 1)

/-! ### OpenAI listwise compare and sliding-window rerank (listwise.py lines 183-235) -/

/-- Outcome of one attempt of the external chat-completion call in
`OpenAiListwiseLlmRanker.compare` (listwise.py lines 186-202). -/
inductive OracleOutcome where
  | success (text : List Char)
  | contextLengthError
  | transientError
  deriving DecidableEq, Repr

/-- The sentinel text returned on a detected context-length failure
(listwise.py line 202). -/
def reduceLengthSentinel : List Char := "ERROR::reduce_length".data

/-- Embeds the retry loop (`while True:`) of `OpenAiListwiseLlmRanker.compare`
(listwise.py lines 186-202) over a stream of attempt outcomes: a success
returns the completion text, a context-length error returns the sentinel,
any other exception retries.  An all-transient stream never returns (`none`). -/
def compareLoop : List OracleOutcome → Option (List Char)
  | [] => none
  | .success s :: _ => some s
  | .contextLengthError :: _ => some reduceLengthSentinel
  | .transientError :: rest => compareLoop rest

/-- The window loop of `OpenAiListwiseLlmRanker.rerank` (listwise.py lines
217-229), fuel-indexed: at each visited position extract the window, ask the
oracle `orcl` for a permutation, repair and apply it, and step back by the
stride.  Returns the visited start positions and the final ranking.  The
source loop decrements `start_pos` until it is negative; with a positive
stride the fuel `start_pos.toNat + 1` is enough, which is proved below. -/
def passAux (orcl : List SearchResult → List Char) (W S : ℕ) :
    ℕ → ℤ → List SearchResult → List ℤ × List SearchResult
  | 0, _, r => ([], r)
  | fuel + 1, pos, r =>
      if 0 ≤ pos then
        let window_docs := pySlice pos.toNat (pos.toNat + W) r
        let permutation := orcl window_docs
        let r2 := receive_permutation r permutation pos.toNat (pos.toNat + W)
        let rest := passAux orcl W S fuel (pos - S) r2
        (pos :: rest.1, rest.2)
      else ([], r)

/-- One sliding-window pass over the ranking (listwise.py lines 211-229):
`start_pos` begins at `len(ranking) - window_size`. -/
def listwisePass (orcl : List SearchResult → List Char) (W S : ℕ)
    (ranking : List SearchResult) : List ℤ × List SearchResult :=
  passAux orcl W S (((ranking.length : ℤ) - W).toNat + 1) ((ranking.length : ℤ) - W) ranking

/-- Embeds `OpenAiListwiseLlmRanker.rerank` (listwise.py lines 204-235): repeat the
pass `num_repeat` times (the per-repeat `deepcopy` is the identity in this
pure model), then assign each document the synthetic score `-i`. -/
def listwiseRerank (orcl : List SearchResult → List Char) (W S R : ℕ)
    (ranking : List SearchResult) : List SearchResult :=
  let r := (List.range R).foldl (fun acc _ => (listwisePass orcl W S acc).2) ranking
  enumMapFrom (fun i d => ⟨d.docid, -(i : ℚ), d.text⟩) 0 r

/-! ### Pairwise ranker (pairwise.py) -/

/-- Embeds pairwise.py `ComparableDoc` (lines 29-40), as plain data; its ranker
pointer is the abstract oracle threaded through the functions below. -/
structure ComparableDoc where
  docid : String
  text : Option (List Char)
  deriving DecidableEq, Repr

instance : Inhabited ComparableDoc := ⟨⟨"", none⟩⟩

/-- Python `str.format` interpolation of a possibly-`None` document text:
`format` renders `None` as the four characters `None`. -/
def textOf : Option (List Char) → List Char
  | some t => t
  | none => "None".data

/-- The pairwise prompt template `PairwiseLlmRanker.prompt`
(pairwise.py lines 56-62) instantiated at a query and two passages. -/
def pairwisePrompt (query doc1 doc2 : List Char) : List Char :=
  "Given a query \"".data ++ query ++
  "\", which of the following two passages is more relevant to the query?\n\nPassage A: \"".data ++
  doc1 ++ "\"\n\nPassage B: \"".data ++ doc2 ++
  "\"\n\nOutput Passage A or Passage B:".data

/-- Embeds `PairwiseLlmRanker.compare` (pairwise.py lines 102-155): build the prompt
in both document orders and return the two decoded oracle outputs.  The
model-specific tokenisation, generation and decoding is the external oracle,
abstracted as `gen : prompt text -> decoded output text`. -/
def pairwiseCompare (gen : List Char → List Char) (query d1 d2 : List Char) :
    List (List Char) :=
  [gen (pairwisePrompt query d1 d2), gen (pairwisePrompt query d2 d1)]

/-- Python `itertools.combinations(l, 2)`, in its order. -/
def combinations2 : List α → List (α × α)
  | [] => []
  | x :: xs => xs.map (fun y => (x, y)) ++ combinations2 xs

/-- The accumulated scores `defaultdict(float)` of the all-pairs strategy,
as an insertion-ordered association list. -/
def ScoreMap : Type := List (String × ℚ)

/-- Operation `scores[docid] += v` on a `defaultdict(float)`: update in place, or
append a fresh entry whose missing value defaults to `0`. -/
def addScore : List (String × ℚ) → String → ℚ → List (String × ℚ)
  | [], k, v => [(k, v)]
  | (k2, v2) :: rest, k, v =>
      if k2 = k then (k2, v2 + v) :: rest else (k2, v2) :: addScore rest k v

/-- The score-accumulation branch for one document pair
(pairwise.py lines 238-244): both-ways agreement gives +1 to the winner,
anything else gives +0.5 to each. -/
def applyPairScore (m : List (String × ℚ)) (d1 d2 : SearchResult)
    (o1 o2 : List Char) : List (String × ℚ) :=
  if o1 = "Passage A".data ∧ o2 = "Passage B".data then addScore m d1.docid 1
  else if o1 = "Passage B".data ∧ o2 = "Passage A".data then addScore m d2.docid 1
  else addScore (addScore m d1.docid (1/2)) d2.docid (1/2)

/-- The scoring loop of the all-pairs strategy (pairwise.py lines 233-244):
consume the output list two entries per document pair. -/
def scoreLoop : List (SearchResult × SearchResult) → List (List Char) →
    List (String × ℚ) → List (String × ℚ)
  | (d1, d2) :: ps, o1 :: o2 :: os, m => scoreLoop ps os (applyPairScore m d1 d2 o1 o2)
  | _, _, m => m

/-- The prompt list `allpairs` (pairwise.py lines 192-197): both orders for
each combination, in combination order. -/
def allpairPrompts (query : List Char) (pairs : List (SearchResult × SearchResult)) :
    List (List Char) :=
  pairs.flatMap (fun p =>
    [pairwisePrompt query (textOf p.1.text) (textOf p.2.text),
     pairwisePrompt query (textOf p.2.text) (textOf p.1.text)])

/-- The accumulated scores of the all-pairs strategy for a candidate list:
prompts are built per pair, pushed through the (order-preserving, batched)
generation pipeline `gen`, and folded by the scoring loop. -/
def allpairScores (gen : List Char → List Char) (query : List Char)
    (ranking : List SearchResult) : List (String × ℚ) :=
  scoreLoop (combinations2 ranking)
    ((allpairPrompts query (combinations2 ranking)).map gen) []

/-- Python `sorted(l, key=lambda x: x.score, reverse=True)`: stable insertion
of `a` into an already descending list — walk past strictly larger scores so
that, among equal scores, earlier elements stay first. -/
def insertDesc (a : SearchResult) : List SearchResult → List SearchResult
  | [] => [a]
  | b :: bs => if a.score ≥ b.score then a :: b :: bs else b :: insertDesc a bs

/-- Stable descending sort by score (Python `sorted(..., reverse=True)`). -/
def pySortedDesc (l : List SearchResult) : List SearchResult :=
  l.foldr insertDesc []

/-- The heap key expression of `PairwiseLlmRanker.heapSort` (pairwise.py line
163): `-self.compare("", [doc.text, arr[0].text])[0] == "Passage A"`.  Unary
minus binds tighter than `==`, so Python evaluates `-out0` where `out0` is a
string and raises `TypeError: bad operand type for unary -` — before any
comparison with `"Passage A"` happens.  (Note the call also compares `doc`
only against the fixed anchor `arr[0]`.) -/
def heapKey (_out0 : List Char) : Except PyErr Bool :=
  Except.error PyErr.typeError

/-- Embeds `PairwiseLlmRanker.heapSort` (pairwise.py lines 157-167).  For a nonempty
`arr` the first `heappush` evaluates `heapKey` for `arr[0]` itself (against
the anchor `arr[0]`) and raises; for an empty `arr` the push loop is skipped
and the `k` `heappop`s from the empty heap raise `IndexError` unless
`k = 0`. -/
def heapSort (gen : List Char → List Char) (arr : List ComparableDoc) (k : ℕ) :
    Except PyErr (List ComparableDoc) :=
  match arr with
  | [] => if k = 0 then .ok [] else .error .indexError
  | anchor :: _ =>
      (heapKey ((pairwiseCompare gen "".data (textOf anchor.text)
        (textOf anchor.text)).headD [])).bind
        (fun _ => .error .typeError)

/-- The inner loop of `PairwiseLlmRanker.bubblesort` (pairwise.py lines
175-179): `cnt` iterations starting at index `j`; each compares positions
`j` and `j+1` (an `IndexError` when `j+1` is out of range, which happens
exactly when `k` exceeds the candidate count) and swaps when the first
judgment prefers Passage B. -/
def bubbleInner (gen : List Char → List Char) (query : List Char) :
    List ComparableDoc → ℕ → ℕ → Except PyErr (List ComparableDoc)
  | arr, _, 0 => .ok arr
  | arr, j, cnt + 1 =>
      if j + 1 < arr.length then
        let a := arr.getD j default
        let b := arr.getD (j + 1) default
        let arr2 :=
          if (pairwiseCompare gen query (textOf a.text) (textOf b.text)).headD []
              = "Passage B".data then
            (arr.set j b).set (j + 1) a
          else arr
        bubbleInner gen query arr2 (j + 1) cnt
      else .error .indexError

/-- The outer loop of `PairwiseLlmRanker.bubblesort` (pairwise.py line 174),
over the remaining values of `i`. -/
def bubbleOuter (gen : List Char → List Char) (query : List Char) (k : ℕ) :
    List ComparableDoc → List ℕ → Except PyErr (List ComparableDoc)
  | arr, [] => .ok arr
  | arr, i :: is =>
      match bubbleInner gen query arr 0 (k - i - 1) with
      | .error e => .error e
      | .ok arr2 => bubbleOuter gen query k arr2 is

/-- Embeds `PairwiseLlmRanker.bubblesort` (pairwise.py lines 169-183): bubble the
first `k` documents, then write them back with synthetic scores and cleared
texts. -/
def bubblesort (gen : List Char → List Char) (query : List Char)
    (ranking : List SearchResult) (k : ℕ) : Except PyErr (List SearchResult) :=
  let arr := (ranking.take k).map (fun d => ComparableDoc.mk d.docid d.text)
  match bubbleOuter gen query k arr (List.range k) with
  | .error e => .error e
  | .ok arr2 =>
      .ok (enumMapFrom (fun i d => SearchResult.mk d.docid (-(i : ℚ)) none) 0 arr2 ++
        ranking.drop k)

/-- The result-merge loop of `PairwiseLlmRanker.rerank` (pairwise.py lines
262-275): the strategy output truncated to `k`, then every original document
whose docid is not among the top docids, in original order; each entry gets
`text=None` and `score = -rank` with `rank` counting from 1. -/
def mergeResults (k : ℕ) (ranked original : List SearchResult) : List SearchResult :=
  let top := ranked.take k
  let top_doc_ids := top.map (fun d => d.docid)
  let tail := original.filter (fun d => decide (d.docid ∉ top_doc_ids))
  enumMapFrom (fun i d => SearchResult.mk d.docid (-((i : ℚ) + 1)) none) 0 (top ++ tail)

/-- Embeds `PairwiseLlmRanker.rerank` (pairwise.py lines 185-275): dispatch on the
strategy, then merge with the (deep-copied) original ranking. -/
def pairwiseRerank (gen : List Char → List Char) (method : String) (k : ℕ)
    (query : List Char) (ranking : List SearchResult) :
    Except PyErr (List SearchResult) :=
  let original_ranking := ranking
  if method = "allpair" then
    .ok (mergeResults k
      (pySortedDesc ((allpairScores gen query ranking).map
        (fun p => SearchResult.mk p.1 p.2 none)))
      original_ranking)
  else if method = "heapsort" then
    match heapSort gen (ranking.map (fun d => ComparableDoc.mk d.docid d.text)) k with
    | .error e => .error e
    | .ok arr =>
        .ok (mergeResults k
          (enumMapFrom (fun i d => SearchResult.mk d.docid (-(i : ℚ)) none) 0 arr.reverse)
          original_ranking)
  else if method = "bubblesort" then
    match bubblesort gen query ranking k with
    | .error e => .error e
    | .ok ranking2 => .ok (mergeResults k ranking2 original_ranking)
  else .error .notImplementedError

/-- The merge invariants of the spec (sections 4.5 and 8) for a top size
`k`: same length, same docids, and the tail keeps the original relative
order — the output splits at some point `m ≤ k` (the reordered top block,
never larger than `k`) after which it is exactly the original sequence with
the top-block docids filtered out, in original order.  The bound `m ≤ k` is
what makes the tail clause contentful: without it `m = output.length` would
satisfy the clause vacuously whenever the docid permutation holds, saying
nothing about the order of the documents outside the top-k. -/
def mergeInv (k : ℕ) (input output : List SearchResult) : Prop :=
  output.length = input.length ∧
  (output.map (fun d => d.docid)).Perm (input.map (fun d => d.docid)) ∧
  ∃ m, m ≤ k ∧ m ≤ output.length ∧
    ((output.drop m).map (fun d => d.docid)) =
      ((input.map (fun d => d.docid)).filter
        (fun x => decide (x ∉ (output.take m).map (fun d => d.docid))))

/-! ## Lemmas about the permutation repair -/

/-- The fold underlying `remove_duplicate` keeps the accumulator duplicate
free and accumulates exactly the members of accumulator and input. -/
theorem dedupFold_spec [DecidableEq α] (l : List α) :
    ∀ acc : List α, acc.Nodup →
      (l.foldl (fun acc c => if c ∈ acc then acc else acc ++ [c]) acc).Nodup ∧
      ∀ a, a ∈ l.foldl (fun acc c => if c ∈ acc then acc else acc ++ [c]) acc ↔
        a ∈ acc ∨ a ∈ l := by
  induction l with
  | nil => intro acc h; simpa using h
  | cons c cs ih =>
      intro acc h
      by_cases hc : c ∈ acc
      · have := ih acc h
        simp only [List.foldl_cons, if_pos hc]
        refine ⟨this.1, fun a => ?_⟩
        rw [this.2 a]
        constructor
        · rintro (ha | ha)
          · exact Or.inl ha
          · exact Or.inr (List.mem_cons_of_mem _ ha)
        · rintro (ha | ha)
          · exact Or.inl ha
          · rcases List.mem_cons.1 ha with rfl | ha
            · exact Or.inl hc
            · exact Or.inr ha
      · have hacc : (acc ++ [c]).Nodup := by
          simp [List.nodup_append, h, List.disjoint_singleton, hc]
        have := ih (acc ++ [c]) hacc
        simp only [List.foldl_cons, if_neg hc]
        refine ⟨this.1, fun a => ?_⟩
        rw [this.2 a]
        simp only [List.mem_append, List.mem_singleton, List.mem_cons]
        tauto

/-- Output of `remove_duplicate` has no duplicates. -/
theorem remove_duplicate_nodup [DecidableEq α] (l : List α) :
    (remove_duplicate l).Nodup :=
  (dedupFold_spec l [] List.nodup_nil).1

/-- Membership in the output of `remove_duplicate` is membership in its input. -/
theorem mem_remove_duplicate [DecidableEq α] (l : List α) (a : α) :
    a ∈ remove_duplicate l ↔ a ∈ l := by
  rw [remove_duplicate, (dedupFold_spec l [] List.nodup_nil).2 a]
  simp

/-- Length is preserved by the write-back loop. -/
theorem writeLoop_length (vals : List α) :
    ∀ (l : List α) (i : ℕ), (writeLoop l vals i).length = l.length := by
  induction vals with
  | nil => intro l i; rfl
  | cons v vs ih => intro l i; rw [writeLoop, ih]; simp

/-- Positions outside the written block are unchanged by the write-back loop. -/
theorem writeLoop_getElem?_outside (vals : List α) :
    ∀ (l : List α) (i j : ℕ), (j < i ∨ i + vals.length ≤ j) →
      (writeLoop l vals i)[j]? = l[j]? := by
  induction vals with
  | nil => intro l i j _; rfl
  | cons v vs ih =>
      intro l i j h
      have hne : i ≠ j := by rcases h with h | h <;> simp at h ⊢ <;> omega
      have hj : j < i + 1 ∨ (i + 1) + vs.length ≤ j := by
        rcases h with h | h
        · exact Or.inl (by omega)
        · exact Or.inr (by simp at h; omega)
      rw [writeLoop, ih (l.set i v) (i + 1) j hj, List.getElem?_set_ne hne]

/-- Writing `vals` starting at `i` splices `vals` over positions
`[i, i + vals.length)`. -/
theorem writeLoop_eq_splice (vals : List α) :
    ∀ (l : List α) (i : ℕ), i + vals.length ≤ l.length →
      writeLoop l vals i = l.take i ++ vals ++ l.drop (i + vals.length) := by
  induction vals with
  | nil =>
      intro l i _
      simp [writeLoop]
  | cons v vs ih =>
      intro l i h
      have hi : i < l.length := by simp at h; omega
      have hsplit : l.set i v = (l.take i ++ [v]) ++ l.drop (i + 1) := by
        rw [List.set_eq_take_cons_drop v hi]; simp
      have hlen : (l.take i ++ [v]).length = i + 1 := by
        simp [List.length_take, Nat.min_eq_left (Nat.le_of_lt hi)]
      rw [writeLoop, ih (l.set i v) (i + 1) (by simp; simp at h; omega), hsplit]
      rw [List.take_left' hlen]
      have hdrop : ((l.take i ++ [v]) ++ l.drop (i + 1)).drop (i + 1 + vs.length) =
          l.drop (i + (vs.length + 1)) := by
        rw [← List.drop_drop, List.drop_left' hlen, List.drop_drop]
        congr 1
        omega
      rw [hdrop]
      simp

/-- Reading off a list by index recovers the list. -/
theorem map_getD_range [Inhabited α] (l : List α) :
    (List.range l.length).map (fun i => l.getD i default) = l := by
  apply List.ext_getElem
  · simp
  · intro i h1 h2
    simp only [List.getElem_map, List.getElem_range, List.getD_eq_getElem?_getD]
    rw [List.getElem?_eq_getElem h2]
    rfl

/-- The repaired index list is a permutation of `[0, n)`: no duplicates, no
omissions, no out-of-range values (spec section 8 Totality). -/
theorem resolvedPerm_perm (t : List Char) (n : ℕ) :
    (resolvedPerm t n).Perm ((List.range n).map (Int.ofNat ·)) := by
  rw [resolvedPerm]
  set parsed := (pyWords (clean_response t)).map (fun x => pyInt x - 1) with hparsed
  set origR := (List.range n).map (Int.ofNat ·) with horigR
  set r2 := (remove_duplicate parsed).filter (fun ss => decide (ss ∈ origR)) with hr2
  set tailF := origR.filter (fun tt => decide (tt ∉ r2)) with htail
  have horigNodup : origR.Nodup :=
    (List.nodup_range n).map (fun a b h => Int.ofNat.inj h)
  have hr2Nodup : r2.Nodup := (remove_duplicate_nodup parsed).filter _
  have htailNodup : tailF.Nodup := horigNodup.filter _
  have hr2Sub : ∀ x ∈ r2, x ∈ origR := by
    intro x hx
    rcases List.mem_filter.1 hx with ⟨_, h⟩
    simpa using h
  have hdisj : ∀ x ∈ r2, x ∉ tailF := by
    intro x hx hxt
    rcases List.mem_filter.1 hxt with ⟨_, h⟩
    simp at h
    exact h hx
  have hnodup : (r2 ++ tailF).Nodup :=
    List.nodup_append.2 ⟨hr2Nodup, htailNodup, fun x hx => hdisj x hx⟩
  rw [List.perm_ext_iff_of_nodup hnodup horigNodup]
  intro a
  constructor
  · intro ha
    rcases List.mem_append.1 ha with ha | ha
    · exact hr2Sub a ha
    · exact (List.mem_filter.1 ha).1
  · intro ha
    by_cases har : a ∈ r2
    · exact List.mem_append.2 (Or.inl har)
    · refine List.mem_append.2 (Or.inr (List.mem_filter.2 ⟨ha, ?_⟩))
      simpa using har

/-- Length of the repaired index list. -/
theorem resolvedPerm_length (t : List Char) (n : ℕ) :
    (resolvedPerm t n).length = n := by
  have := (resolvedPerm_perm t n).length_eq
  simpa using this

/-- The window values written back by `receive_permutation` are a
permutation of the original window. -/
theorem receive_vals_perm [Inhabited α] (t : List Char) (cut : List α) :
    ((resolvedPerm t cut.length).map (fun x => cut.getD x.toNat default)).Perm cut := by
  have h1 := (resolvedPerm_perm t cut.length).map (fun x => cut.getD x.toNat default)
  have h2 : ((List.range cut.length).map (Int.ofNat ·)).map
      (fun x => cut.getD x.toNat default) = cut := by
    rw [List.map_map]
    have : ((fun x : ℤ => cut.getD x.toNat default) ∘ (Int.ofNat ·)) =
        fun i : ℕ => cut.getD i default := by
      funext i; simp
    rw [this, map_getD_range]
  rw [h2] at h1
  exact h1

/-- Taking then dropping at the take length reassembles the list, for any
take bound. -/
theorem take_append_drop_len (m : ℕ) (t : List α) :
    t.take m ++ t.drop (t.take m).length = t := by
  rcases le_or_lt m t.length with h | h
  · rw [List.length_take, Nat.min_eq_left h]
    exact List.take_append_drop m t
  · rw [List.take_of_length_le (Nat.le_of_lt h)]
    simp

/-- Length of a Python slice. -/
theorem pySlice_length (s e : ℕ) (l : List α) :
    (pySlice s e l).length = min (e - s) (l.length - s) := by
  simp [pySlice]

/-- Abbreviation for the value list written back by `receive_permutation`. -/
theorem receive_permutation_eq_writeLoop [Inhabited α] (ranking : List α)
    (t : List Char) (s e : ℕ) :
    receive_permutation ranking t s e =
      writeLoop ranking
        ((resolvedPerm t (pySlice s e ranking).length).map
          (fun x => (pySlice s e ranking).getD x.toNat default)) s := rfl

/-- The write-back of `receive_permutation` splices the permuted window over
the original window positions. -/
theorem receive_permutation_splice [Inhabited α] (ranking : List α)
    (t : List Char) (s e : ℕ) :
    receive_permutation ranking t s e =
      ranking.take s ++
      ((resolvedPerm t (pySlice s e ranking).length).map
        (fun x => (pySlice s e ranking).getD x.toNat default)) ++
      ranking.drop (s + (pySlice s e ranking).length) := by
  rw [receive_permutation_eq_writeLoop]
  have hvlen : ((resolvedPerm t (pySlice s e ranking).length).map
      (fun x => (pySlice s e ranking).getD x.toNat default)).length =
      (pySlice s e ranking).length := by
    simp [resolvedPerm_length]
  rcases le_or_lt s ranking.length with hs | hs
  · have hb : s + ((resolvedPerm t (pySlice s e ranking).length).map
        (fun x => (pySlice s e ranking).getD x.toNat default)).length ≤
        ranking.length := by
      rw [hvlen, pySlice_length]; omega
    rw [writeLoop_eq_splice _ _ _ hb, hvlen]
  · have hcut : pySlice s e ranking = [] := by
      simp [pySlice, List.drop_eq_nil_of_le (Nat.le_of_lt hs)]
    have hres : resolvedPerm t (pySlice s e ranking).length = [] := by
      rw [← List.length_eq_zero, resolvedPerm_length, hcut]; rfl
    rw [hres, hcut]
    simp [writeLoop, List.take_of_length_le (Nat.le_of_lt hs),
      List.drop_eq_nil_of_le (Nat.le_of_lt hs)]

/-- Length is preserved by `receive_permutation` (part of C1). -/
theorem receive_permutation_length [Inhabited α] (ranking : List α)
    (t : List Char) (s e : ℕ) :
    (receive_permutation ranking t s e).length = ranking.length := by
  rw [receive_permutation_eq_writeLoop, writeLoop_length]

/-- The slice `[s, e)` of the output of `receive_permutation` is exactly the
written-back value list. -/
theorem pySlice_receive_permutation [Inhabited α] (ranking : List α)
    (t : List Char) (s e : ℕ) :
    pySlice s e (receive_permutation ranking t s e) =
      (resolvedPerm t (pySlice s e ranking).length).map
        (fun x => (pySlice s e ranking).getD x.toNat default) := by
  have hvlen : ((resolvedPerm t (pySlice s e ranking).length).map
      (fun x => (pySlice s e ranking).getD x.toNat default)).length =
      (pySlice s e ranking).length := by
    simp [resolvedPerm_length]
  rcases le_or_lt s ranking.length with hs | hs
  · have htlen : (ranking.take s).length = s := by
      simp [List.length_take, Nat.min_eq_left hs]
    rw [receive_permutation_splice, pySlice, List.append_assoc,
      List.drop_left' htlen]
    rcases le_or_lt (e - s) (ranking.length - s) with hcase | hcase
    · have hn : (pySlice s e ranking).length = e - s := by
        rw [pySlice_length]; omega
      rw [List.take_left' (by rw [hvlen, hn])]
    · have hdrop : ranking.drop (s + (pySlice s e ranking).length) = [] := by
        apply List.drop_eq_nil_of_le
        rw [pySlice_length]; omega
      rw [hdrop, List.append_nil]
      apply List.take_of_length_le
      rw [hvlen, pySlice_length]; omega
  · have hcut : pySlice s e ranking = [] := by
      simp [pySlice, List.drop_eq_nil_of_le (Nat.le_of_lt hs)]
    have hres : resolvedPerm t (pySlice s e ranking).length = [] := by
      rw [← List.length_eq_zero, resolvedPerm_length, hcut]; rfl
    have hid : receive_permutation ranking t s e = ranking := by
      rw [receive_permutation_eq_writeLoop, hres]; rfl
    have h0 : resolvedPerm t ([] : List α).length = [] := by
      rw [← List.length_eq_zero, resolvedPerm_length]
      rfl
    rw [hid, hcut, h0]
    rfl

/-- Characterisation of all-whitespace inputs of the word splitter. -/
theorem pyWordsAux_all_ws (l : List Char) :
    (∀ c ∈ l, c.isWhitespace = true) → pyWordsAux l [] = [] := by
  induction l with
  | nil => intro _; rfl
  | cons c cs ih =>
      intro h
      have hc : c.isWhitespace = true := h c (List.mem_cons_self c cs)
      simp only [pyWordsAux, hc, if_true, if_pos rfl]
      exact ih (fun x hx => h x (List.mem_cons_of_mem _ hx))

/-- Membership after stripping implies membership before. -/
theorem mem_pyStrip (l : List Char) (c : Char) (h : c ∈ pyStrip l) : c ∈ l := by
  rw [pyStrip, List.mem_reverse] at h
  have h2 := (List.dropWhile_sublist _).subset h
  rw [List.mem_reverse] at h2
  exact (List.dropWhile_sublist _).subset h2

/-- With no digit in the raw text, the cleaner yields only whitespace. -/
theorem clean_response_no_digits (t : List Char)
    (h : ∀ c ∈ t, c.isDigit = false) :
    ∀ c ∈ clean_response t, c.isWhitespace = true := by
  intro c hc
  have hc2 := mem_pyStrip _ _ hc
  rcases List.mem_map.1 hc2 with ⟨a, ha, rfl⟩
  rw [h a ha]
  simp

/-- With no digit in the raw text, the repaired permutation is the identity
permutation of `[0, n)`. -/
theorem resolvedPerm_no_digits (t : List Char) (n : ℕ)
    (h : ∀ c ∈ t, c.isDigit = false) :
    resolvedPerm t n = (List.range n).map (Int.ofNat ·) := by
  have hwords : pyWords (clean_response t) = [] :=
    pyWordsAux_all_ws _ (clean_response_no_digits t h)
  rw [resolvedPerm, hwords]
  simp [remove_duplicate, List.filter_eq_self]

/-- Writing the window slice back over itself is the identity. -/
theorem writeLoop_slice_self [Inhabited α] (ranking : List α) (s e : ℕ) :
    writeLoop ranking (pySlice s e ranking) s = ranking := by
  rcases le_or_lt s ranking.length with hs | hs
  · have hb : s + (pySlice s e ranking).length ≤ ranking.length := by
      rw [pySlice_length]; omega
    rw [writeLoop_eq_splice _ _ _ hb]
    have hdd : ranking.drop (s + (pySlice s e ranking).length) =
        (ranking.drop s).drop (pySlice s e ranking).length := by
      rw [List.drop_drop]
    rw [hdd, pySlice]
    rw [show ((ranking.drop s).take (e - s)).length =
      (((ranking.drop s).take (e - s))).length from rfl]
    rw [List.append_assoc]
    conv_rhs => rw [← List.take_append_drop s ranking]
    congr 1
    exact take_append_drop_len (e - s) (ranking.drop s)
  · have hcut : pySlice s e ranking = [] := by
      simp [pySlice, List.drop_eq_nil_of_le (Nat.le_of_lt hs)]
    rw [hcut]; rfl

/-- With no digit in the response, `receive_permutation` is the identity:
the repaired permutation is the identity and the window is rewritten with
its own contents. -/
theorem receive_permutation_no_digits [Inhabited α] (ranking : List α)
    (t : List Char) (s e : ℕ) (h : ∀ c ∈ t, c.isDigit = false) :
    receive_permutation ranking t s e = ranking := by
  rw [receive_permutation_eq_writeLoop, resolvedPerm_no_digits t _ h]
  have hmap : (((List.range (pySlice s e ranking).length).map (Int.ofNat ·)).map
      (fun x => (pySlice s e ranking).getD x.toNat default)) =
      pySlice s e ranking := by
    rw [List.map_map]
    have heq : ((fun x : ℤ => (pySlice s e ranking).getD x.toNat default) ∘
        (Int.ofNat ·)) = fun i : ℕ => (pySlice s e ranking).getD i default := by
      funext i; simp
    rw [heq, map_getD_range]
  rw [hmap, writeLoop_slice_self]

/-- A transient-error prefix does not change the outcome of the retry loop. -/
theorem compareLoop_skips_transient (pre rest : List OracleOutcome)
    (h : ∀ a ∈ pre, a = OracleOutcome.transientError) :
    compareLoop (pre ++ rest) = compareLoop rest := by
  induction pre with
  | nil => rfl
  | cons a as ih =>
      have ha : a = OracleOutcome.transientError := h a (List.mem_cons_self a as)
      subst ha
      rw [List.cons_append, compareLoop]
      exact ih (fun x hx => h x (List.mem_cons_of_mem _ hx))

/-! ## Claim theorems for the permutation repair -/

/-- C1.  Permutation repair is total: for every input text (including the
empty one) and every window `[rank_start, rank_end)` of the ranking,
`receive_permutation` preserves the length of the ranking and rewrites the
window as a permutation of the original window documents; the repaired index
list is itself a complete, duplicate-free permutation of the window-local
index range, so no document is omitted, duplicated, or drawn from
out-of-range indices, and the function never fails (it is a total
function). -/
theorem receive_permutation_total {α : Type} [Inhabited α] (ranking : List α)
    (text : List Char) (rank_start rank_end : ℕ) :
    (receive_permutation ranking text rank_start rank_end).length = ranking.length ∧
    (pySlice rank_start rank_end (receive_permutation ranking text rank_start rank_end)).Perm
      (pySlice rank_start rank_end ranking) ∧
    (resolvedPerm text (pySlice rank_start rank_end ranking).length).Perm
      ((List.range (pySlice rank_start rank_end ranking).length).map (Int.ofNat ·)) := by
  refine ⟨receive_permutation_length ranking text rank_start rank_end, ?_, ?_⟩
  · rw [pySlice_receive_permutation]
    exact receive_vals_perm text (pySlice rank_start rank_end ranking)
  · exact resolvedPerm_perm text (pySlice rank_start rank_end ranking).length

/-- C9.  Frame property of the permutation repair: for every ranking,
response text, `rank_start` and `rank_end`, positions outside
`[rank_start, rank_end)` are unchanged by `receive_permutation`. -/
theorem receive_permutation_frame {α : Type} [Inhabited α] (ranking : List α)
    (text : List Char) (rank_start rank_end j : ℕ)
    (h : j < rank_start ∨ rank_end ≤ j) :
    (receive_permutation ranking text rank_start rank_end)[j]? = ranking[j]? := by
  rw [receive_permutation_eq_writeLoop]
  apply writeLoop_getElem?_outside
  have hn : ((resolvedPerm text (pySlice rank_start rank_end ranking).length).map
      (fun x => (pySlice rank_start rank_end ranking).getD x.toNat default)).length =
      (pySlice rank_start rank_end ranking).length := by
    simp [resolvedPerm_length]
  have hb : (pySlice rank_start rank_end ranking).length ≤ rank_end - rank_start := by
    rw [pySlice_length]; omega
  rw [hn]
  omega

/-- Witness for C9 at a concrete input: repairing the window `[1, 3)` of a
three-element list leaves position `0` unchanged. -/
theorem receive_permutation_frame_witness :
    (receive_permutation [10, 20, 30] ("[2] > [1]".data) 1 3)[0]? =
      ([10, 20, 30] : List ℕ)[0]? :=
  receive_permutation_frame [10, 20, 30] ("[2] > [1]".data) 1 3 0
    (Or.inl (by decide))

/-- C8.  A context-too-long failure inside the oracle retry loop (after any
number of transient failures) yields the sentinel `ERROR::reduce_length`,
and permutation repair on that sentinel — or on any text with no digit
characters — leaves the window order unchanged and never raises. -/
theorem contextLength_sentinel_identity (pre : List OracleOutcome)
    (hpre : ∀ a ∈ pre, a = OracleOutcome.transientError)
    (ranking : List SearchResult) (rank_start rank_end : ℕ) (t : List Char)
    (ht : ∀ c ∈ t, c.isDigit = false) :
    compareLoop (pre ++ [OracleOutcome.contextLengthError]) = some reduceLengthSentinel ∧
    receive_permutation ranking reduceLengthSentinel rank_start rank_end = ranking ∧
    receive_permutation ranking t rank_start rank_end = ranking := by
  refine ⟨?_, ?_, ?_⟩
  · rw [compareLoop_skips_transient pre _ hpre]; rfl
  · exact receive_permutation_no_digits ranking _ rank_start rank_end (by decide)
  · exact receive_permutation_no_digits ranking t rank_start rank_end ht

/-- Witness for C8 at a concrete input: one transient attempt followed by a
context-length failure gives the sentinel, and the sentinel leaves a
two-document window untouched. -/
theorem contextLength_sentinel_identity_witness :
    compareLoop ([OracleOutcome.transientError] ++ [OracleOutcome.contextLengthError]) =
      some reduceLengthSentinel ∧
    receive_permutation [SearchResult.mk "a" 0 none, SearchResult.mk "b" 0 none]
      reduceLengthSentinel 0 2 =
      [SearchResult.mk "a" 0 none, SearchResult.mk "b" 0 none] := by
  have h := contextLength_sentinel_identity [OracleOutcome.transientError]
    (by intro a ha; simpa using ha)
    [SearchResult.mk "a" 0 none, SearchResult.mk "b" 0 none] 0 2 [] (by intro c hc; cases hc)
  exact ⟨h.1, h.2.1⟩

/-! ## Claim theorems for the sliding window -/

/-- A negative start position is never visited: the window loop exits
immediately. -/
theorem passAux_neg (orcl : List SearchResult → List Char) (W S fuel : ℕ)
    (pos : ℤ) (r : List SearchResult) (h : pos < 0) :
    passAux orcl W S fuel pos r = ([], r) := by
  cases fuel with
  | zero => rfl
  | succ f => rw [passAux, if_neg (by omega)]

/-- With a positive stride and enough fuel, the visited start positions are
the arithmetic progression `pos, pos - S, ...` down to the least nonnegative
value. -/
theorem passAux_visits (orcl : List SearchResult → List Char) (W S : ℕ)
    (hS : 1 ≤ S) :
    ∀ (fuel : ℕ) (pos : ℤ) (r : List SearchResult), 0 ≤ pos → pos.toNat < fuel →
      (passAux orcl W S fuel pos r).1 =
        (List.range (pos.toNat / S + 1)).map
          (fun i : ℕ => pos - (i : ℤ) * (S : ℤ)) := by
  intro fuel
  induction fuel with
  | zero => intro pos r _ h; omega
  | succ f ih =>
      intro pos r hpos hfuel
      rw [passAux, if_pos hpos]
      dsimp only
      rcases lt_or_le (pos - S) 0 with hneg | hnonneg
      · have hlt : pos.toNat < S := by omega
        rw [passAux_neg orcl W S f _ _ hneg]
        rw [Nat.div_eq_of_lt hlt]
        rw [show List.range 1 = [0] from rfl]
        simp
      · have htn : (pos - S).toNat = pos.toNat - S := by omega
        have hS2 : S ≤ pos.toNat := by omega
        have hrec := ih (pos - S) (receive_permutation r
          (orcl (pySlice pos.toNat (pos.toNat + W) r)) pos.toNat (pos.toNat + W))
          hnonneg (by omega)
        rw [hrec, htn]
        have hdiv : pos.toNat / S = (pos.toNat - S) / S + 1 :=
          Nat.div_eq_sub_div (by omega) hS2
        rw [hdiv]
        conv_rhs => rw [List.range_succ_eq_map]
        simp only [List.map_cons, List.map_map]
        congr 1
        · simp
        · apply List.map_congr_left
          intro i _
          simp only [Function.comp_apply]
          push_cast
          ring

/-- C5.  Window coverage: for a ranking of length `n ≥ W` and stride
`S ≥ 1`, one pass of the listwise sliding-window rerank visits exactly
`(n - W) / S + 1` windows, whose start positions are
`n - W, n - W - S, n - W - 2S, ...` down to the smallest nonnegative value;
no negative start position is ever visited. -/
theorem listwisePass_window_coverage (orcl : List SearchResult → List Char)
    (W S : ℕ) (ranking : List SearchResult) (hS : 1 ≤ S)
    (hW : W ≤ ranking.length) :
    (listwisePass orcl W S ranking).1 =
      (List.range ((ranking.length - W) / S + 1)).map
        (fun i : ℕ => ((ranking.length - W : ℕ) : ℤ) - (i : ℤ) * (S : ℤ)) ∧
    (listwisePass orcl W S ranking).1.length = (ranking.length - W) / S + 1 ∧
    ∀ p ∈ (listwisePass orcl W S ranking).1, 0 ≤ p := by
  have hpos : ((ranking.length : ℤ) - W) = ((ranking.length - W : ℕ) : ℤ) := by
    omega
  have h0 : (0 : ℤ) ≤ (ranking.length : ℤ) - W := by omega
  have htn : ((ranking.length : ℤ) - W).toNat = ranking.length - W := by omega
  have hv : (listwisePass orcl W S ranking).1 =
      (List.range ((ranking.length - W) / S + 1)).map
        (fun i : ℕ => ((ranking.length - W : ℕ) : ℤ) - (i : ℤ) * (S : ℤ)) := by
    rw [listwisePass, passAux_visits orcl W S hS _ _ _ h0 (by omega), htn, hpos]
  refine ⟨hv, ?_, ?_⟩
  · rw [hv]; simp
  · intro p hp
    rw [hv] at hp
    rcases List.mem_map.1 hp with ⟨i, hi, rfl⟩
    have hi2 : i ≤ (ranking.length - W) / S := by
      have := List.mem_range.1 hi; omega
    have h1 : i * S ≤ ranking.length - W :=
      le_trans (Nat.mul_le_mul_right S hi2) (Nat.div_mul_le_self _ _)
    have h2 : ((i * S : ℕ) : ℤ) ≤ ((ranking.length - W : ℕ) : ℤ) := by
      exact_mod_cast h1
    push_cast at h2
    omega

/-- Witness for C5 at the concrete example from the spec: `n = 10`, `W = 4`,
`S = 2` visits the start positions `6, 4, 2, 0` — four windows. -/
theorem listwisePass_window_coverage_witness :
    (listwisePass (fun _ => []) 4 2
      (List.replicate 10 (SearchResult.mk "x" 0 none))).1 = [6, 4, 2, 0] :=
  ((listwisePass_window_coverage (fun _ => []) 4 2
    (List.replicate 10 (SearchResult.mk "x" 0 none)) (by decide) (by decide)).1).trans
    (by decide)

/-- C7.  End-to-end listwise scenario: with candidates `d1, d2, d3, d4` and
an oracle that always answers `[4] > [3] > [2] > [1]`, a listwise rerank
with window 4, stride 4 and one repeat returns the documents in the order
`d4, d3, d2, d1`. -/
theorem listwiseRerank_reversal_scenario (orcl : List SearchResult → List Char)
    (h : ∀ docs, orcl docs = "[4] > [3] > [2] > [1]".data) :
    (listwiseRerank orcl 4 4 1
      [SearchResult.mk "d1" 0 none, SearchResult.mk "d2" 0 none,
       SearchResult.mk "d3" 0 none, SearchResult.mk "d4" 0 none]).map
      (fun d => d.docid) = ["d4", "d3", "d2", "d1"] := by
  have horcl : orcl = fun _ => "[4] > [3] > [2] > [1]".data := funext h
  subst horcl
  decide

/-- Witness for C7: the constant oracle realises the hypothesis. -/
theorem listwiseRerank_reversal_scenario_witness :
    (listwiseRerank (fun _ => "[4] > [3] > [2] > [1]".data) 4 4 1
      [SearchResult.mk "d1" 0 none, SearchResult.mk "d2" 0 none,
       SearchResult.mk "d3" 0 none, SearchResult.mk "d4" 0 none]).map
      (fun d => d.docid) = ["d4", "d3", "d2", "d1"] :=
  listwiseRerank_reversal_scenario (fun _ => "[4] > [3] > [2] > [1]".data)
    (fun _ => rfl)

/-! ## Claim theorems for the prompt budget fitter -/

/-- With no documents, the built messages do not depend on the truncation
length at all: the shrink loop changes nothing between iterations. -/
theorem buildMessages_nil_const (query : List Char) (ml ml2 : ℤ) :
    buildMessages query [] ml = buildMessages query [] ml2 := rfl

/-- The token-count fold only grows from its accumulator. -/
theorem num_tokens_foldl_ge_acc (enc : List Char → ℕ) (model : List Char) :
    ∀ (msgs : List ChatMessage) (acc : ℕ),
      acc ≤ msgs.foldl
        (fun acc m => acc + tokens_per_message model + enc m.role + enc m.content)
        acc := by
  intro msgs
  induction msgs with
  | nil => intro acc; exact Nat.le_refl acc
  | cons mm rest ih =>
      intro acc
      calc acc ≤ acc + tokens_per_message model + enc mm.role + enc mm.content := by
            omega
        _ ≤ _ := ih _

/-- Any single message content is a lower bound on the token count of the
whole message list. -/
theorem num_tokens_ge_content (enc : List Char → ℕ) (model : List Char)
    (m : ChatMessage) :
    ∀ (msgs : List ChatMessage) (acc : ℕ), m ∈ msgs →
      acc + enc m.content ≤ msgs.foldl
        (fun acc mm => acc + tokens_per_message model + enc mm.role + enc mm.content)
        acc := by
  intro msgs
  induction msgs with
  | nil => intro acc h; cases h
  | cons mm rest ih =>
      intro acc h
      rcases List.mem_cons.1 h with rfl | h
      · calc acc + enc m.content ≤
            acc + tokens_per_message model + enc m.role + enc m.content := by omega
          _ ≤ _ := num_tokens_foldl_ge_acc enc model rest _
      · calc acc + enc m.content ≤
            (acc + tokens_per_message model + enc mm.role + enc mm.content) +
              enc m.content := by omega
          _ ≤ _ := ih _ h

/-- With the character-count token estimate, a 4000-character query and no
documents, the message cost exceeds the `4096 - 200` budget of a non-GPT-4
model: the loop condition never becomes true. -/
theorem fitter_condition_never_met (ml : ℤ) :
    ¬ num_tokens_from_messages List.length
        (buildMessages (List.replicate 4000 'a') [] ml) ("m".data) ≤
      max_tokens ("m".data) - 200 := by
  have hbudget : max_tokens ("m".data) - 200 = 3896 := by decide
  rw [hbudget]
  set m2 : ChatMessage :=
    ⟨"user".data,
     "I will provide you with ".data ++ (Nat.repr 0).data ++
     " passages, each indicated by number identifier []. \nRank the passages based on their relevance to query: ".data ++
     List.replicate 4000 'a' ++ ".".data⟩ with hm2
  have hmem : m2 ∈ buildMessages (List.replicate 4000 'a') [] ml := by
    rw [show buildMessages (List.replicate 4000 'a') [] ml =
      get_prefix_prompt (List.replicate 4000 'a') 0 ++
        [⟨"user".data, get_post_prompt (List.replicate 4000 'a') 0⟩] from rfl]
    apply List.mem_append_left
    rw [get_prefix_prompt]
    exact List.mem_cons_of_mem _ (List.mem_cons_self _ _)
  have hlow : 4000 ≤ m2.content.length := by
    rw [hm2]
    simp only [List.length_append, List.length_replicate]
    omega
  have hge := num_tokens_ge_content List.length ("m".data) m2
    (buildMessages (List.replicate 4000 'a') [] ml) 0 hmem
  rw [num_tokens_from_messages]
  omega

/-- C2 (code bug).  The shrink-to-fit loop of
`create_permutation_instruction_chat` does not terminate for every input:
with a non-chat-budget-exempt model name, the character-count token
estimate, a 4000-character query and an empty document list, the messages
are independent of the truncation length and always exceed the budget, so
the `while True:` loop decrements `max_length` forever — no fuel ever
suffices, whatever truncation length it starts from.  The spec requires a
floor and a fatal `ContextBudgetExceeded` outcome instead (spec sections
4.2, 7 and 9). -/
theorem create_permutation_instruction_chat_nonterminating (fuel : ℕ) (ml : ℤ) :
    create_permutation_instruction_chat List.length (List.replicate 4000 'a') []
      (some ("m".data)) fuel ml = none := by
  induction fuel generalizing ml with
  | zero => rfl
  | succ f ih =>
      rw [create_permutation_instruction_chat]
      simp only [if_neg (fitter_condition_never_met ml)]
      exact ih (ml - 1)

/-! ## Lemmas about the pairwise ranker -/

/-- Length of an enumerated map. -/
theorem enumMapFrom_length (f : ℕ → α → β) :
    ∀ (i : ℕ) (l : List α), (enumMapFrom f i l).length = l.length := by
  intro i l
  induction l generalizing i with
  | nil => rfl
  | cons a as ih => simp [enumMapFrom, ih]

/-- An enumerated map splits over append, shifting the index. -/
theorem enumMapFrom_append (f : ℕ → α → β) :
    ∀ (l1 l2 : List α) (i : ℕ),
      enumMapFrom f i (l1 ++ l2) =
        enumMapFrom f i l1 ++ enumMapFrom f (i + l1.length) l2 := by
  intro l1
  induction l1 with
  | nil => intro l2 i; simp [enumMapFrom]
  | cons a as ih =>
      intro l2 i
      show f i a :: enumMapFrom f (i + 1) (as ++ l2) =
        (f i a :: enumMapFrom f (i + 1) as) ++ enumMapFrom f (i + (as.length + 1)) l2
      rw [List.cons_append, ih, show i + 1 + as.length = i + (as.length + 1) from by omega]

/-- Mapping an index-independent projection over an enumerated map. -/
theorem enumMapFrom_map (f : ℕ → α → β) (g : β → γ) (h : α → γ)
    (hgf : ∀ i d, g (f i d) = h d) :
    ∀ (i : ℕ) (l : List α), (enumMapFrom f i l).map g = l.map h := by
  intro i l
  induction l generalizing i with
  | nil => rfl
  | cons a as ih => simp [enumMapFrom, hgf, ih]

/-- Entries of an enumerated map by position. -/
theorem enumMapFrom_getElem? (f : ℕ → α → β) :
    ∀ (l : List α) (i j : ℕ),
      (enumMapFrom f i l)[j]? = (l[j]?).map (f (i + j)) := by
  intro l
  induction l with
  | nil => intro i j; rfl
  | cons a as ih =>
      intro i j
      cases j with
      | zero => simp [enumMapFrom]
      | succ j2 =>
          simp only [enumMapFrom, List.getElem?_cons_succ, ih]
          rw [show i + 1 + j2 = i + (j2 + 1) from by omega]

/-- Accumulating a score preserves the key set up to the touched key. -/
theorem addScore_keys (k : String) (v : ℚ) :
    ∀ (m : List (String × ℚ)) (x : String),
      x ∈ (addScore m k v).map Prod.fst ↔ x ∈ m.map Prod.fst ∨ x = k := by
  intro m
  induction m with
  | nil => intro x; simp [addScore]
  | cons p rest ih =>
      intro x
      rcases p with ⟨k2, v2⟩
      by_cases hk : k2 = k
      · subst hk
        simp [addScore]
        tauto
      · simp only [addScore, if_neg hk, List.map_cons, List.mem_cons, ih]
        tauto

/-- Accumulating a score keeps the keys duplicate free. -/
theorem addScore_keys_nodup (k : String) (v : ℚ) :
    ∀ (m : List (String × ℚ)), (m.map Prod.fst).Nodup →
      ((addScore m k v).map Prod.fst).Nodup := by
  intro m
  induction m with
  | nil => intro _; simp [addScore]
  | cons p rest ih =>
      intro h
      rcases p with ⟨k2, v2⟩
      simp only [List.map_cons, List.nodup_cons] at h
      by_cases hk : k2 = k
      · subst hk
        simpa [addScore] using h
      · simp only [addScore, if_neg hk, List.map_cons, List.nodup_cons]
        refine ⟨?_, ih h.2⟩
        rw [addScore_keys]
        push_neg
        exact ⟨h.1, hk⟩

/-- Accumulating a score adds exactly its value to the total. -/
theorem addScore_sum (k : String) (v : ℚ) :
    ∀ (m : List (String × ℚ)),
      ((addScore m k v).map Prod.snd).sum = (m.map Prod.snd).sum + v := by
  intro m
  induction m with
  | nil => simp [addScore]
  | cons p rest ih =>
      rcases p with ⟨k2, v2⟩
      by_cases hk : k2 = k
      · subst hk; simp [addScore]; ring
      · simp [addScore, if_neg hk, ih]; ring

/-- One pair adds exactly one point to the total, however the two oracle
outputs fall (spec section 4.4: +1 to the winner, or +0.5 to each). -/
theorem applyPairScore_sum (m : List (String × ℚ)) (d1 d2 : SearchResult)
    (o1 o2 : List Char) :
    ((applyPairScore m d1 d2 o1 o2).map Prod.snd).sum = (m.map Prod.snd).sum + 1 := by
  rw [applyPairScore]
  split
  · rw [addScore_sum]
  · split
    · rw [addScore_sum]
    · rw [addScore_sum, addScore_sum]; ring

/-- The pair touched by `applyPairScore` only adds the two docids to the
key set. -/
theorem applyPairScore_keys (m : List (String × ℚ)) (d1 d2 : SearchResult)
    (o1 o2 : List Char) (x : String)
    (hx : x ∈ (applyPairScore m d1 d2 o1 o2).map Prod.fst) :
    x ∈ m.map Prod.fst ∨ x = d1.docid ∨ x = d2.docid := by
  rw [applyPairScore] at hx
  split at hx
  · rcases (addScore_keys _ _ _ _).1 hx with h | h
    · exact Or.inl h
    · exact Or.inr (Or.inl h)
  · split at hx
    · rcases (addScore_keys _ _ _ _).1 hx with h | h
      · exact Or.inl h
      · exact Or.inr (Or.inr h)
    · rcases (addScore_keys _ _ _ _).1 hx with h | h
      · rcases (addScore_keys _ _ _ _).1 h with h2 | h2
        · exact Or.inl h2
        · exact Or.inr (Or.inl h2)
      · exact Or.inr (Or.inr h)

/-- Scoring a pair keeps the keys duplicate free. -/
theorem applyPairScore_keys_nodup (m : List (String × ℚ)) (d1 d2 : SearchResult)
    (o1 o2 : List Char) (h : (m.map Prod.fst).Nodup) :
    ((applyPairScore m d1 d2 o1 o2).map Prod.fst).Nodup := by
  rw [applyPairScore]
  split
  · exact addScore_keys_nodup _ _ _ h
  · split
    · exact addScore_keys_nodup _ _ _ h
    · exact addScore_keys_nodup _ _ _ (addScore_keys_nodup _ _ _ h)

/-- Membership in a 2-combination implies membership in the base list. -/
theorem combinations2_mem :
    ∀ (l : List α) (p : α × α), p ∈ combinations2 l → p.1 ∈ l ∧ p.2 ∈ l := by
  intro l
  induction l with
  | nil => intro p h; cases h
  | cons x xs ih =>
      intro p h
      rcases List.mem_append.1 h with h | h
      · rcases List.mem_map.1 h with ⟨y, hy, rfl⟩
        exact ⟨List.mem_cons_self _ _, List.mem_cons_of_mem _ hy⟩
      · rcases ih p h with ⟨h1, h2⟩
        exact ⟨List.mem_cons_of_mem _ h1, List.mem_cons_of_mem _ h2⟩

/-- Number of 2-combinations. -/
theorem combinations2_length :
    ∀ (l : List α), (combinations2 l).length = l.length.choose 2 := by
  intro l
  induction l with
  | nil => rfl
  | cons x xs ih =>
      simp only [combinations2, List.length_append, List.length_map, ih,
        List.length_cons]
      rw [Nat.choose_succ_succ, Nat.choose_one_right]

/-- The prompt list for a cons of pairs starts with the two prompts of the
first pair. -/
theorem allpairPrompts_cons (query : List Char) (p : SearchResult × SearchResult)
    (ps : List (SearchResult × SearchResult)) :
    allpairPrompts query (p :: ps) =
      pairwisePrompt query (textOf p.1.text) (textOf p.2.text) ::
      pairwisePrompt query (textOf p.2.text) (textOf p.1.text) ::
      allpairPrompts query ps := by
  simp [allpairPrompts]

/-- The scoring loop on aligned outputs adds one point per pair. -/
theorem scoreLoop_sum (gen : List Char → List Char) (query : List Char) :
    ∀ (ps : List (SearchResult × SearchResult)) (m : List (String × ℚ)),
      ((scoreLoop ps ((allpairPrompts query ps).map gen) m).map Prod.snd).sum =
        (m.map Prod.snd).sum + ps.length := by
  intro ps
  induction ps with
  | nil => intro m; simp [allpairPrompts, scoreLoop]
  | cons p rest ih =>
      intro m
      rcases p with ⟨d1, d2⟩
      rw [allpairPrompts_cons]
      simp only [List.map_cons, scoreLoop]
      rw [ih, applyPairScore_sum]
      simp only [List.length_cons]
      push_cast
      ring

/-- Keys produced by the scoring loop come from the initial keys or from the
docids of the scored pairs, and they stay duplicate free. -/
theorem scoreLoop_keys :
    ∀ (ps : List (SearchResult × SearchResult)) (os : List (List Char))
      (m : List (String × ℚ)), (m.map Prod.fst).Nodup →
      ((scoreLoop ps os m).map Prod.fst).Nodup ∧
      ∀ x ∈ (scoreLoop ps os m).map Prod.fst,
        x ∈ m.map Prod.fst ∨ ∃ p ∈ ps, x = p.1.docid ∨ x = p.2.docid := by
  intro ps
  induction ps with
  | nil =>
      intro os m h
      constructor
      · cases os <;> exact h
      · cases os <;> exact fun x hx => Or.inl hx
  | cons p rest ih =>
      intro os m h
      rcases p with ⟨d1, d2⟩
      match os with
      | [] => exact ⟨h, fun x hx => Or.inl hx⟩
      | [o1] => exact ⟨h, fun x hx => Or.inl hx⟩
      | o1 :: o2 :: os2 =>
          have h2 := applyPairScore_keys_nodup m d1 d2 o1 o2 h
          rcases ih os2 (applyPairScore m d1 d2 o1 o2) h2 with ⟨hn, hk⟩
          refine ⟨hn, fun x hx => ?_⟩
          rcases hk x hx with hx2 | ⟨q, hq, hq2⟩
          · rcases applyPairScore_keys m d1 d2 o1 o2 x hx2 with h3 | h3 | h3
            · exact Or.inl h3
            · exact Or.inr ⟨(d1, d2), List.mem_cons_self _ _, Or.inl h3⟩
            · exact Or.inr ⟨(d1, d2), List.mem_cons_self _ _, Or.inr h3⟩
          · exact Or.inr ⟨q, List.mem_cons_of_mem _ hq, hq2⟩

/-- Stable descending insertion permutes. -/
theorem insertDesc_perm (a : SearchResult) :
    ∀ l : List SearchResult, (insertDesc a l).Perm (a :: l) := by
  intro l
  induction l with
  | nil => exact List.Perm.refl _
  | cons b bs ih =>
      rw [insertDesc]
      split
      · exact List.Perm.refl _
      · exact (ih.cons b).trans (List.Perm.swap a b bs)

/-- The stable descending sort permutes its input. -/
theorem pySortedDesc_perm :
    ∀ l : List SearchResult, (pySortedDesc l).Perm l := by
  intro l
  induction l with
  | nil => exact List.Perm.refl _
  | cons a as ih => exact (insertDesc_perm a _).trans (ih.cons a)

/-- Filtering on a projected predicate commutes with mapping the
projection. -/
theorem map_filter_proj (g : α → β) (p : β → Bool) :
    ∀ l : List α, (l.filter (fun d => p (g d))).map g = (l.map g).filter p := by
  intro l
  induction l with
  | nil => rfl
  | cons a as ih =>
      by_cases hp : p (g a)
      · simp [List.filter_cons, hp, ih]
      · simp [List.filter_cons, hp, ih]

/-- The merge loop satisfies the merge invariants whenever the top block has
duplicate-free docids drawn from the original ranking. -/
theorem mergeResults_inv (k : ℕ) (ranked original : List SearchResult)
    (hnd : (original.map (fun d => d.docid)).Nodup)
    (hnd2 : ((ranked.take k).map (fun d => d.docid)).Nodup)
    (hsub : ∀ x ∈ (ranked.take k).map (fun d => d.docid),
      x ∈ original.map (fun d => d.docid)) :
    mergeInv k original (mergeResults k ranked original) := by
  set top := ranked.take k with htop
  set topIds := top.map (fun d => d.docid) with htopIds
  set tail := original.filter (fun d => decide (d.docid ∉ topIds)) with htail
  have hdocid : ∀ (l : List SearchResult) (i : ℕ),
      (enumMapFrom (fun i d => SearchResult.mk d.docid (-((i : ℚ) + 1)) none) i l).map
        (fun d => d.docid) = l.map (fun d => d.docid) := by
    intro l i
    exact enumMapFrom_map
      (fun i d => SearchResult.mk d.docid (-((i : ℚ) + 1)) none)
      (fun d => d.docid) (fun d => d.docid) (fun _ _ => rfl) i l
  have hmap : (mergeResults k ranked original).map (fun d => d.docid) =
      topIds ++ tail.map (fun d => d.docid) := by
    rw [mergeResults]
    rw [hdocid]
    rw [List.map_append]
  have htailIds : tail.map (fun d => d.docid) =
      (original.map (fun d => d.docid)).filter (fun x => decide (x ∉ topIds)) :=
    map_filter_proj (fun d => d.docid) (fun x => decide (x ∉ topIds)) original
  have hdisj : ∀ x ∈ topIds, x ∉ tail.map (fun d => d.docid) := by
    intro x hx hmem
    rw [htailIds] at hmem
    rcases List.mem_filter.1 hmem with ⟨_, hdec⟩
    simp at hdec
    exact hdec hx
  have hnodupL : (topIds ++ tail.map (fun d => d.docid)).Nodup :=
    List.nodup_append.2 ⟨hnd2, by rw [htailIds]; exact hnd.filter _,
      fun x hx => hdisj x hx⟩
  have hperm : (topIds ++ tail.map (fun d => d.docid)).Perm
      (original.map (fun d => d.docid)) := by
    rw [List.perm_ext_iff_of_nodup hnodupL hnd]
    intro x
    constructor
    · intro hx
      rcases List.mem_append.1 hx with hx | hx
      · exact hsub x hx
      · rw [htailIds] at hx
        exact (List.mem_filter.1 hx).1
    · intro hx
      by_cases hxt : x ∈ topIds
      · exact List.mem_append.2 (Or.inl hxt)
      · refine List.mem_append.2 (Or.inr ?_)
        rw [htailIds]
        exact List.mem_filter.2 ⟨hx, by simpa using hxt⟩
  have hpermOut : ((mergeResults k ranked original).map (fun d => d.docid)).Perm
      (original.map (fun d => d.docid)) := by
    rw [hmap]; exact hperm
  have hlen : (mergeResults k ranked original).length = original.length := by
    have h1 := hpermOut.length_eq
    simpa using h1
  refine ⟨hlen, hpermOut, top.length, ?_, ?_, ?_⟩
  · rw [htop, List.length_take]
    omega
  · rw [mergeResults, enumMapFrom_length, List.length_append, htop]
    omega
  · have hsplit : mergeResults k ranked original =
        enumMapFrom (fun i d => SearchResult.mk d.docid (-((i : ℚ) + 1)) none) 0 top ++
        enumMapFrom (fun i d => SearchResult.mk d.docid (-((i : ℚ) + 1)) none)
          (0 + top.length) tail := by
      rw [mergeResults, enumMapFrom_append]
    have hlen1 : (enumMapFrom (fun i d => SearchResult.mk d.docid (-((i : ℚ) + 1)) none)
        0 top).length = top.length := enumMapFrom_length _ _ _
    have htake : (mergeResults k ranked original).take top.length =
        enumMapFrom (fun i d => SearchResult.mk d.docid (-((i : ℚ) + 1)) none) 0 top := by
      rw [hsplit, List.take_left' hlen1]
    have hdrop : (mergeResults k ranked original).drop top.length =
        enumMapFrom (fun i d => SearchResult.mk d.docid (-((i : ℚ) + 1)) none)
          (0 + top.length) tail := by
      rw [hsplit, List.drop_left' hlen1]
    have htakeIds : ((mergeResults k ranked original).take top.length).map
        (fun d => d.docid) = topIds := by
      rw [htake, hdocid]
    have hdropIds : ((mergeResults k ranked original).drop top.length).map
        (fun d => d.docid) = tail.map (fun d => d.docid) := by
      rw [hdrop, hdocid]
    rw [hdropIds, htakeIds, htailIds]

/-- Exchanging two adjacent positions by a double `set` permutes the list. -/
theorem set_swap_perm [Inhabited α] :
    ∀ (j : ℕ) (arr : List α), j + 1 < arr.length →
      ((arr.set j (arr.getD (j + 1) default)).set (j + 1)
        (arr.getD j default)).Perm arr := by
  intro j
  induction j with
  | zero =>
      intro arr h
      match arr with
      | a :: b :: rest => exact List.Perm.swap a b rest
  | succ j2 ih =>
      intro arr h
      match arr with
      | c :: rest =>
          have h2 : j2 + 1 < rest.length := by simpa using h
          simpa [List.getD_cons_succ] using (ih rest h2).cons c

/-- The bubble inner loop succeeds and permutes whenever the iteration count
fits inside the array. -/
theorem bubbleInner_ok (gen : List Char → List Char) (query : List Char) :
    ∀ (cnt j : ℕ) (arr : List ComparableDoc),
      (cnt = 0 ∨ j + cnt < arr.length) →
      ∃ arr2, bubbleInner gen query arr j cnt = .ok arr2 ∧ arr2.Perm arr := by
  intro cnt
  induction cnt with
  | zero =>
      intro j arr _
      exact ⟨arr, rfl, List.Perm.refl _⟩
  | succ c ih =>
      intro j arr h
      rcases h with h | h
      · omega
      · have hj : j + 1 < arr.length := by omega
        rw [bubbleInner, if_pos hj]
        dsimp only
        set arr2 := if (pairwiseCompare gen query (textOf (arr.getD j default).text)
            (textOf (arr.getD (j + 1) default).text)).headD [] = "Passage B".data then
            (arr.set j (arr.getD (j + 1) default)).set (j + 1) (arr.getD j default)
          else arr with harr2
        have hperm : arr2.Perm arr := by
          rw [harr2]
          split
          · exact set_swap_perm j arr hj
          · exact List.Perm.refl _
        have hlen : arr2.length = arr.length := hperm.length_eq
        have hrec : c = 0 ∨ (j + 1) + c < arr2.length := by
          rcases Nat.eq_zero_or_pos c with hc | hc
          · exact Or.inl hc
          · exact Or.inr (by omega)
        rcases ih (j + 1) arr2 hrec with ⟨arr3, heq, hperm3⟩
        exact ⟨arr3, heq, hperm3.trans hperm⟩

/-- The bubble outer loop succeeds and permutes whenever the array has
exactly `k` entries. -/
theorem bubbleOuter_ok (gen : List Char → List Char) (query : List Char) (k : ℕ) :
    ∀ (is : List ℕ) (arr : List ComparableDoc), arr.length = k →
      ∃ arr2, bubbleOuter gen query k arr is = .ok arr2 ∧ arr2.Perm arr ∧
        arr2.length = k := by
  intro is
  induction is with
  | nil =>
      intro arr h
      exact ⟨arr, rfl, List.Perm.refl _, h⟩
  | cons i is2 ih =>
      intro arr h
      have hcond : k - i - 1 = 0 ∨ 0 + (k - i - 1) < arr.length := by omega
      rcases bubbleInner_ok gen query (k - i - 1) 0 arr hcond with ⟨arr2, heq, hperm⟩
      have hlen2 : arr2.length = k := by rw [hperm.length_eq, h]
      rcases ih arr2 hlen2 with ⟨arr3, heq3, hperm3, hlen3⟩
      refine ⟨arr3, ?_, hperm3.trans hperm, hlen3⟩
      rw [bubbleOuter, heq]
      exact heq3

/-! ## Claim theorems for the pairwise ranker -/

/-- C6.  Score conservation in the all-pairs strategy: for every candidate
list and every pattern of oracle outputs for the `2 * C(n,2)` judgments, the
accumulated scores sum to exactly `C(n,2)` — each unordered pair contributes
`+1` to one document or `+0.5` to each. -/
theorem allpairScores_sum (gen : List Char → List Char) (query : List Char)
    (ranking : List SearchResult) :
    ((allpairScores gen query ranking).map Prod.snd).sum =
      (ranking.length.choose 2 : ℚ) := by
  rw [allpairScores, scoreLoop_sum gen query (combinations2 ranking) []]
  simp [combinations2_length]

/-- Texts are cleared by the merge loop. -/
theorem enumMapFrom_merge_text (l : List SearchResult) :
    ∀ i : ℕ, (enumMapFrom (fun i d => SearchResult.mk d.docid (-((i : ℚ) + 1)) none)
      i l).map (fun d => d.text) = List.replicate l.length none := by
  induction l with
  | nil => intro i; rfl
  | cons a as ih =>
      intro i
      simp only [enumMapFrom, List.map_cons, ih, List.length_cons,
        List.replicate_succ]

/-- Scores assigned by the merge loop are the negated 1-based positions. -/
theorem enumMapFrom_merge_score (l : List SearchResult) :
    ∀ i : ℕ, (enumMapFrom (fun i d => SearchResult.mk d.docid (-((i : ℚ) + 1)) none)
      i l).map (fun d => d.score) =
      (List.range l.length).map (fun j : ℕ => -(((i + j : ℕ) : ℚ) + 1)) := by
  induction l with
  | nil => intro i; rfl
  | cons a as ih =>
      intro i
      simp only [enumMapFrom, List.map_cons, ih, List.length_cons]
      rw [List.range_succ_eq_map]
      simp only [List.map_cons, List.map_map]
      rw [List.cons_eq_cons]
      constructor
      · norm_num
      · apply List.map_congr_left
        intro j _
        simp only [Function.comp_apply]
        push_cast
        ring

/-- Every entry built by the merge loop has a cleared text and score equal
to the negation of its 1-based output position. -/
theorem mergeResults_shape (k : ℕ) (ranked original : List SearchResult) :
    (mergeResults k ranked original).map (fun d => d.text) =
      List.replicate (mergeResults k ranked original).length none ∧
    (mergeResults k ranked original).map (fun d => d.score) =
      (List.range (mergeResults k ranked original).length).map
        (fun j : ℕ => -((j : ℚ) + 1)) := by
  have hlen : (mergeResults k ranked original).length =
      (ranked.take k ++ original.filter
        (fun d => decide (d.docid ∉ (ranked.take k).map (fun d => d.docid)))).length := by
    rw [mergeResults, enumMapFrom_length]
  constructor
  · rw [hlen, mergeResults, enumMapFrom_merge_text]
  · rw [hlen, mergeResults, enumMapFrom_merge_score]
    apply List.map_congr_left
    intro j _
    norm_num

/-- A successful `pairwiseRerank` always returns a merge-loop output. -/
theorem pairwiseRerank_ok_is_merge (gen : List Char → List Char) (method : String)
    (k : ℕ) (query : List Char) (ranking out : List SearchResult)
    (h : pairwiseRerank gen method k query ranking = Except.ok out) :
    ∃ r, out = mergeResults k r ranking := by
  simp only [pairwiseRerank] at h
  by_cases h1 : method = "allpair"
  · rw [if_pos h1] at h
    exact ⟨_, (Except.ok.inj h).symm⟩
  · rw [if_neg h1] at h
    by_cases h2 : method = "heapsort"
    · rw [if_pos h2] at h
      cases hh : heapSort gen (ranking.map (fun d => ComparableDoc.mk d.docid d.text)) k with
      | error e => rw [hh] at h; exact Except.noConfusion h
      | ok arr => rw [hh] at h; exact ⟨_, (Except.ok.inj h).symm⟩
    · rw [if_neg h2] at h
      by_cases h3 : method = "bubblesort"
      · rw [if_pos h3] at h
        cases hb : bubblesort gen query ranking k with
        | error e => rw [hb] at h; exact Except.noConfusion h
        | ok r2 => rw [hb] at h; exact ⟨_, (Except.ok.inj h).symm⟩
      · rw [if_neg h3] at h
        exact Except.noConfusion h

/-- C10.  Pairwise output shape: whenever `PairwiseLlmRanker.rerank` returns
a list, every returned entry — reranked top-k entries included — has
`text = None`, and the scores are exactly `-1, -2, ..., -n` in output
order (`score = -(1-based position)`). -/
theorem pairwiseRerank_output_shape (gen : List Char → List Char)
    (method : String) (k : ℕ) (query : List Char)
    (ranking out : List SearchResult)
    (h : pairwiseRerank gen method k query ranking = Except.ok out) :
    out.map (fun d => d.text) = List.replicate out.length none ∧
    out.map (fun d => d.score) =
      (List.range out.length).map (fun j : ℕ => -((j : ℚ) + 1)) := by
  rcases pairwiseRerank_ok_is_merge gen method k query ranking out h with ⟨r, rfl⟩
  exact mergeResults_shape k r ranking

/-- Witness for C10: a concrete one-document all-pairs rerank returns text
`None` and score `-1`. -/
theorem pairwiseRerank_output_shape_witness :
    pairwiseRerank (fun _ => "Passage A".data) "allpair" 10 ("q".data)
      [SearchResult.mk "d1" 0 (some [])] =
      Except.ok [SearchResult.mk "d1" (-(((0 : ℕ) : ℚ) + 1)) none] ∧
    ([SearchResult.mk "d1" (-(((0 : ℕ) : ℚ) + 1)) none].map (fun d => d.text) =
      [none] ∧
     [SearchResult.mk "d1" (-(((0 : ℕ) : ℚ) + 1)) none].map (fun d => d.score) =
      [-(((0 : ℕ) : ℚ) + 1)]) := by
  have hok : pairwiseRerank (fun _ => "Passage A".data) "allpair" 10 ("q".data)
      [SearchResult.mk "d1" 0 (some [])] =
      Except.ok [SearchResult.mk "d1" (-(((0 : ℕ) : ℚ) + 1)) none] := rfl
  have hshape := pairwiseRerank_output_shape (fun _ => "Passage A".data) "allpair"
    10 ("q".data) [SearchResult.mk "d1" 0 (some [])]
    [SearchResult.mk "d1" (-(((0 : ℕ) : ℚ) + 1)) none] hok
  refine ⟨hok, hshape.1, ?_⟩
  exact hshape.2

/-- C3 (code bug).  The heap-based top-k strategy never builds a heap keyed
by pairwise comparisons between arbitrary elements: the source keys every
entry by a comparison against the fixed anchor `arr[0]`, and the key
expression negates a string, so the first push raises `TypeError` — no top-k
is ever extracted.  Evaluated here at a concrete two-document input, both at
the `heapSort` level and through `rerank` with the heapsort strategy. -/
theorem heapSort_raises_typeError :
    heapSort (fun _ => "Passage A".data)
      [ComparableDoc.mk "a" (some []), ComparableDoc.mk "b" (some [])] 2 =
      Except.error PyErr.typeError ∧
    pairwiseRerank (fun _ => "Passage A".data) "heapsort" 2 ("q".data)
      [SearchResult.mk "a" 0 (some []), SearchResult.mk "b" 0 (some [])] =
      Except.error PyErr.typeError :=
  ⟨rfl, rfl⟩

/-- Counterexample for C4 as stated: two unique-docid candidate lists on
which `rerank` raises instead of returning a list, so no output with the
claimed length/docid/tail invariants exists there.  The heapsort strategy
raises `TypeError` on a nonempty two-document list (the string-negating heap
key, see C3), and the bubblesort strategy raises `IndexError` on a
one-document list with `k = 2` (its inner loop reads `arr[1]` past the end
of the one-element array).  These two failures force, respectively, dropping
heapsort from the amended claim and restricting bubblesort to the
non-raising regime `k ≤ 1 ∨ k ≤ |input|`. -/
theorem pairwiseRerank_strategy_failures :
    pairwiseRerank (fun _ => "Passage B".data) "heapsort" 1 ("q".data)
      [SearchResult.mk "d1" 0 none, SearchResult.mk "d2" 0 none] =
      Except.error PyErr.typeError ∧
    pairwiseRerank (fun _ => "Passage B".data) "bubblesort" 2 ("q".data)
      [SearchResult.mk "d1" 0 none] =
      Except.error PyErr.indexError :=
  ⟨rfl, rfl⟩

/-- C4 (amended).  Merge invariants: for every oracle, query, `k` and input
candidate list with unique docids, the allpair strategy returns a list with
the same length, the same docid set (a permutation), and — beyond a
reordered top block of at most `k` documents — exactly the remaining
original documents in their original relative order; the bubblesort
strategy satisfies the same invariants exactly in its non-raising regime
`k ≤ 1 ∨ k ≤ |input|` (for `k ≥ 2` and `|input| < k` it raises
`IndexError`, and the heapsort strategy raises `TypeError` on any nonempty
input — see the counterexample). -/
theorem pairwiseRerank_invariants (gen : List Char → List Char) (query : List Char)
    (k : ℕ) (ranking : List SearchResult)
    (hnd : (ranking.map (fun d => d.docid)).Nodup) :
    (∃ out, pairwiseRerank gen "allpair" k query ranking = Except.ok out ∧
      mergeInv k ranking out) ∧
    (k ≤ 1 ∨ k ≤ ranking.length →
      ∃ out, pairwiseRerank gen "bubblesort" k query ranking = Except.ok out ∧
        mergeInv k ranking out) := by
  constructor
  · -- allpair strategy
    set ranked := pySortedDesc ((allpairScores gen query ranking).map
      (fun p => SearchResult.mk p.1 p.2 none)) with hranked
    have hok : pairwiseRerank gen "allpair" k query ranking =
        Except.ok (mergeResults k ranked ranking) := rfl
    have hkeys := scoreLoop_keys (combinations2 ranking)
      ((allpairPrompts query (combinations2 ranking)).map gen) [] (by simp)
    have hperm : (ranked.map (fun d => d.docid)).Perm
        ((allpairScores gen query ranking).map Prod.fst) := by
      have h1 := (pySortedDesc_perm ((allpairScores gen query ranking).map
        (fun p => SearchResult.mk p.1 p.2 none))).map (fun d => d.docid)
      rw [List.map_map] at h1
      exact h1
    have hnd2 : ((ranked.take k).map (fun d => d.docid)).Nodup := by
      have hnodup : (ranked.map (fun d => d.docid)).Nodup :=
        hperm.nodup_iff.2 hkeys.1
      exact hnodup.sublist ((List.take_sublist k ranked).map _)
    have hsub : ∀ x ∈ (ranked.take k).map (fun d => d.docid),
        x ∈ ranking.map (fun d => d.docid) := by
      intro x hx
      have hx2 : x ∈ ranked.map (fun d => d.docid) :=
        ((List.take_sublist k ranked).map _).subset hx
      have hx3 : x ∈ (allpairScores gen query ranking).map Prod.fst :=
        hperm.subset hx2
      rcases hkeys.2 x hx3 with hx4 | ⟨p, hp, hp2⟩
      · simp at hx4
      · rcases combinations2_mem ranking p hp with ⟨h1, h2⟩
        rcases hp2 with rfl | rfl
        · exact List.mem_map.2 ⟨p.1, h1, rfl⟩
        · exact List.mem_map.2 ⟨p.2, h2, rfl⟩
    exact ⟨mergeResults k ranked ranking, hok,
      mergeResults_inv k ranked ranking hnd hnd2 hsub⟩
  · -- bubblesort strategy, within its non-raising regime
    intro hk
    by_cases hkn : k ≤ ranking.length
    case neg =>
      have hk1 : k ≤ 1 := hk.resolve_right hkn
      have hn0 : ranking.length = 0 := by omega
      have hr : ranking = [] := List.length_eq_zero.mp hn0
      subst hr
      have hk01 : k = 0 ∨ k = 1 := by omega
      rcases hk01 with rfl | rfl
      · exact ⟨[], rfl, rfl, List.Perm.refl _, 0, by omega, by omega, rfl⟩
      · exact ⟨[], rfl, rfl, List.Perm.refl _, 0, by omega, by omega, rfl⟩
    case pos =>
      have hlen0 : ((ranking.take k).map
          (fun d => ComparableDoc.mk d.docid d.text)).length = k := by
        simp [List.length_take, Nat.min_eq_left hkn]
      rcases bubbleOuter_ok gen query k (List.range k)
        ((ranking.take k).map (fun d => ComparableDoc.mk d.docid d.text)) hlen0 with
        ⟨arr2, heq, hperm2, hlen2⟩
      set r2 := enumMapFrom (fun i d => SearchResult.mk d.docid (-(i : ℚ)) none) 0 arr2 ++
        ranking.drop k with hr2
      have hbub : bubblesort gen query ranking k = Except.ok r2 := by
        rw [bubblesort]
        rw [heq]
      have hok : pairwiseRerank gen "bubblesort" k query ranking =
          Except.ok (mergeResults k r2 ranking) := by
        simp only [pairwiseRerank]
        rw [if_neg (by decide), if_neg (by decide), if_pos trivial, hbub]
      have henum : (enumMapFrom (fun i d => SearchResult.mk d.docid (-(i : ℚ)) none)
          0 arr2).length = k := by
        rw [enumMapFrom_length]; exact hlen2
      have htop : r2.take k = enumMapFrom
          (fun i d => SearchResult.mk d.docid (-(i : ℚ)) none) 0 arr2 := by
        rw [hr2, List.take_left' henum]
      have htopIds : (r2.take k).map (fun d => d.docid) =
          arr2.map (fun d => d.docid) := by
        rw [htop]
        exact enumMapFrom_map (fun i d => SearchResult.mk d.docid (-(i : ℚ)) none)
          (fun d => d.docid) (fun d => d.docid) (fun _ _ => rfl) 0 arr2
      have hcut : (((ranking.take k).map
          (fun d => ComparableDoc.mk d.docid d.text)).map (fun d => d.docid)) =
          (ranking.take k).map (fun d => d.docid) := by
        rw [List.map_map]
        rfl
      have hpermIds : (arr2.map (fun d => d.docid)).Perm
          ((ranking.take k).map (fun d => d.docid)) := by
        have := hperm2.map (fun d => d.docid)
        rwa [hcut] at this
      have htakeNodup : ((ranking.take k).map (fun d => d.docid)).Nodup :=
        hnd.sublist ((List.take_sublist k ranking).map _)
      have hnd2 : ((r2.take k).map (fun d => d.docid)).Nodup := by
        rw [htopIds]
        exact hpermIds.nodup_iff.2 htakeNodup
      have hsub : ∀ x ∈ (r2.take k).map (fun d => d.docid),
          x ∈ ranking.map (fun d => d.docid) := by
        intro x hx
        rw [htopIds] at hx
        have hx2 : x ∈ (ranking.take k).map (fun d => d.docid) := hpermIds.subset hx
        exact ((List.take_sublist k ranking).map _).subset hx2
      exact ⟨mergeResults k r2 ranking, hok,
        mergeResults_inv k r2 ranking hnd hnd2 hsub⟩

/-- Witness for C4 (amended) at a concrete one-document input, for both the
allpair and the bubblesort strategy. -/
theorem pairwiseRerank_invariants_witness :
    pairwiseRerank (fun _ => "Passage A".data) "allpair" 1 ("q".data)
      [SearchResult.mk "d1" 0 (some [])] =
      Except.ok [SearchResult.mk "d1" (-(((0 : ℕ) : ℚ) + 1)) none] ∧
    mergeInv 1 [SearchResult.mk "d1" 0 (some [])]
      [SearchResult.mk "d1" (-(((0 : ℕ) : ℚ) + 1)) none] ∧
    pairwiseRerank (fun _ => "Passage A".data) "bubblesort" 1 ("q".data)
      [SearchResult.mk "d1" 0 (some [])] =
      Except.ok [SearchResult.mk "d1" (-(((0 : ℕ) : ℚ) + 1)) none] ∧
    mergeInv 1 [SearchResult.mk "d1" 0 (some [])]
      [SearchResult.mk "d1" (-(((0 : ℕ) : ℚ) + 1)) none] := by
  have h := pairwiseRerank_invariants (fun _ => "Passage A".data) ("q".data) 1
    [SearchResult.mk "d1" 0 (some [])] (by decide)
  rcases h with ⟨⟨outA, hAok, hAinv⟩, hB⟩
  rcases hB (by decide) with ⟨outB, hBok, hBinv⟩
  have hAc : pairwiseRerank (fun _ => "Passage A".data) "allpair" 1 ("q".data)
      [SearchResult.mk "d1" 0 (some [])] =
      Except.ok [SearchResult.mk "d1" (-(((0 : ℕ) : ℚ) + 1)) none] := rfl
  have hBc : pairwiseRerank (fun _ => "Passage A".data) "bubblesort" 1 ("q".data)
      [SearchResult.mk "d1" 0 (some [])] =
      Except.ok [SearchResult.mk "d1" (-(((0 : ℕ) : ℚ) + 1)) none] := rfl
  have hAeq : outA = [SearchResult.mk "d1" (-(((0 : ℕ) : ℚ) + 1)) none] :=
    Except.ok.inj (hAok.symm.trans hAc)
  have hBeq : outB = [SearchResult.mk "d1" (-(((0 : ℕ) : ℚ) + 1)) none] :=
    Except.ok.inj (hBok.symm.trans hBc)
  exact ⟨hAc, hAeq ▸ hAinv, hBc, hBeq ▸ hBinv⟩

end LlmRankers
